import Mathlib

/-!
# Ring buffer and writer of `hackrf_transfer.c`

A shallow embedding of the staging pipeline of
`host/hackrf-tools/src/hackrf_transfer.c`: the circular byte buffer
(`buf_add`, `buf_size`, `buf_get`), the retry loop of `write_thread`, the
producer callback `rx_callback` and the header writer `write_header`.

C `int` values are modelled by `Int`; none of the ring buffer arithmetic can
overflow a 32-bit `int` when the indices lie in `[0, WRITE_BUFFER_SIZE)`.
Memory (`fwrite_buffer`, `dest`, `fd_buf`) is modelled by total functions from
indices to bytes.
-/

namespace HackrfTransfer

/-! ## Data model -/

/-- Capacity of the ring: `#define WRITE_BUFFER_SIZE (50*1024*1024)`. -/
def WRITE_BUFFER_SIZE : Int := 50*1024*1024

/-- The globals of the ring buffer: `fwrite_buffer`, `fb_start`, `fb_end`. -/
structure RingState where
  fwrite_buffer : Int → UInt8
  fb_start : Int
  fb_end : Int

/-- Result of a call of `buf_add`: the globals afterwards and the returned `int`. -/
structure AddResult where
  st : RingState
  ret : Int

/-- Result of a call of `buf_get`: the globals afterwards, the memory behind
`dest` afterwards and the returned `int`. -/
structure GetResult where
  st : RingState
  dest : Int → UInt8
  ret : Int

/-! ## `buf_add` -/

/-- The `while ( left > 0 )` loop of `buf_add`. The first argument is the number
of iterations still allowed by the loop condition (`left` as a natural number);
`fb`, `start` and `left` are the locals of the C function. The early
`return left` leaves `fb_end` untouched; the normal exit performs
`fb_end = fb; return left`. -/
def buf_add_loop (s : List UInt8) (l : Int) :
    Nat → RingState → Int → Int → Int → AddResult
  | 0, st, fb, _, left => ⟨{ st with fb_end := fb }, left⟩
  | n + 1, st, fb, start, left =>
    let fb_next := if fb + 1 ≥ WRITE_BUFFER_SIZE then fb + 1 - WRITE_BUFFER_SIZE else fb + 1
    let start1 := if fb_next = start then st.fb_start else start
    if fb_next = start ∧ fb_next = start1 then
      ⟨st, left⟩
    else
      buf_add_loop s l n
        { st with fwrite_buffer :=
            Function.update st.fwrite_buffer fb (s.getD (l - left).toNat 0) }
        fb_next start1 (left - 1)

/-- The function `static int buf_add(const uint8_t *s, int l)`: the memory behind `s` is the
list `s` (`s[i]` is its `i`-th element). -/
def buf_add (st : RingState) (s : List UInt8) (l : Int) : AddResult :=
  buf_add_loop s l l.toNat st st.fb_end st.fb_start l

/-! ## `buf_size` and `buf_get` -/

/-- The function `static int buf_size(void)`. -/
def buf_size (st : RingState) : Int :=
  let bytes := st.fb_end - st.fb_start
  if bytes < 0 then bytes + WRITE_BUFFER_SIZE else bytes

/-- The `while ( bytes > 0 )` loop of `buf_get`; the first argument is `bytes`
as a natural number, `i` is the local index into `dest`. C's `%` truncates
towards zero, which is `Int.tmod`. -/
def buf_get_loop : Nat → RingState → (Int → UInt8) → Int → GetResult
  | 0, st, dest, i => ⟨st, dest, i⟩
  | n + 1, st, dest, i =>
    buf_get_loop n
      { st with fb_start := Int.tmod (st.fb_start + 1) WRITE_BUFFER_SIZE }
      (Function.update dest i (st.fwrite_buffer st.fb_start))
      (i + 1)

/-- The function `static int buf_get(uint8_t *dest, int max_bytes)`. -/
def buf_get (st : RingState) (dest : Int → UInt8) (max_bytes : Int) : GetResult :=
  let bytes := st.fb_end - st.fb_start
  let bytes := if bytes < 0 then bytes + WRITE_BUFFER_SIZE else bytes
  let bytes := if bytes > max_bytes then max_bytes else bytes
  buf_get_loop bytes.toNat st dest 0

/-! ## Specification-level notions -/

/-- Both indices lie in `[0, WRITE_BUFFER_SIZE)`. -/
def InRange (st : RingState) : Prop :=
  0 ≤ st.fb_start ∧ st.fb_start < WRITE_BUFFER_SIZE ∧
  0 ≤ st.fb_end ∧ st.fb_end < WRITE_BUFFER_SIZE

instance (st : RingState) : Decidable (InRange st) := by
  unfold InRange; infer_instance

/-- The buffered bytes, oldest first: the slots `fb_start, fb_start+1, ...`
(modulo `WRITE_BUFFER_SIZE`) up to `fb_end`. -/
def contents (st : RingState) : List UInt8 :=
  (List.range (buf_size st).toNat).map
    (fun (k : Nat) => st.fwrite_buffer ((st.fb_start + (k : Int)) % WRITE_BUFFER_SIZE))

/-- The bytes `dest[0 .. n)`. -/
def dest_bytes (dest : Int → UInt8) (n : Int) : List UInt8 :=
  (List.range n.toNat).map (fun (k : Nat) => dest (k : Int))

/-- The bytes `s[0 .. l)` read through the pointer `s`. -/
def src_bytes (s : List UInt8) (l : Int) : List UInt8 :=
  (List.range l.toNat).map (fun (k : Nat) => s.getD k 0)


/-! ## Sequences of calls on the ring -/

/-- One call on the ring: the producer's `buf_add(s, l)` with `l` the length of
`s`, or the consumer's `buf_get(dest, max_bytes)`. -/
inductive Op where
  | add (s : List UInt8)
  | get (dest : Int → UInt8) (max_bytes : Int)

/-- What an observer of a sequence of calls has seen so far. -/
structure Trace where
  /-- the globals of the ring -/
  st : RingState
  /-- concatenation of all bytes passed to `buf_add` -/
  added : List UInt8
  /-- concatenation of all bytes delivered by `buf_get` -/
  got : List UInt8
  /-- the values returned by the `buf_add` calls, in order -/
  add_rets : List Int
  /-- sum over the `buf_add` calls of length minus returned leftover -/
  totalBytesWritten : Int
  /-- sum of the lengths of the `buf_add` calls that returned 0 -/
  totalBytesCommitted : Int
  /-- sum of the values returned by `buf_get` -/
  totalBytesRead : Int

/-- The observer before any call. -/
def Trace.start (st : RingState) : Trace :=
  ⟨st, [], [], [], 0, 0, 0⟩

/-- Perform one call and record it. -/
def Trace.step (t : Trace) : Op → Trace
  | Op.add s =>
    let r := buf_add t.st s s.length
    { st := r.st
      added := t.added ++ s
      got := t.got
      add_rets := t.add_rets ++ [r.ret]
      totalBytesWritten := t.totalBytesWritten + (s.length - r.ret)
      totalBytesCommitted := t.totalBytesCommitted + (if r.ret = 0 then (s.length : Int) else 0)
      totalBytesRead := t.totalBytesRead }
  | Op.get dest max_bytes =>
    let r := buf_get t.st dest max_bytes
    { st := r.st
      added := t.added
      got := t.got ++ dest_bytes r.dest r.ret
      add_rets := t.add_rets
      totalBytesWritten := t.totalBytesWritten
      totalBytesCommitted := t.totalBytesCommitted
      totalBytesRead := t.totalBytesRead + r.ret }

/-- Perform a sequence of calls, starting from the globals `st`. -/
def run_ops (st : RingState) (ops : List Op) : Trace :=
  ops.foldl Trace.step (Trace.start st)

/-- A ring with one free slot: `fb_start = 2`, `fb_end = 0`, all bytes zero. -/
def almost_full : RingState := ⟨fun _ => 0, 2, 0⟩

/-- The ring as the program starts: `fb_start = 0, fb_end = 0`. -/
def initial_ring : RingState := ⟨fun _ => 0, 0, 0⟩

/-- An empty ring whose indices are about to wrap: `fb_start = fb_end =
WRITE_BUFFER_SIZE - 1`. -/
def empty_at_end : RingState := ⟨fun _ => 0, 52428799, 52428799⟩

/-- The calls of the retry scenario: a `buf_add` of `s`, a `buf_get` by the
consumer, a second `buf_add` of `retry`, and a final `buf_get` of up to
`WRITE_BUFFER_SIZE` bytes, as `write_thread` issues it. -/
structure RetryRun where
  first : AddResult
  freed : GetResult
  second : AddResult
  drained : GetResult

/-- Run the retry scenario from the globals `st`. -/
def retry_run (st : RingState) (s : List UInt8) (dest : Int → UInt8) (max_bytes : Int)
    (retry : List UInt8) (dest2 : Int → UInt8) : RetryRun :=
  let first := buf_add st s s.length
  let freed := buf_get first.st dest max_bytes
  let second := buf_add freed.st retry retry.length
  let drained := buf_get second.st dest2 WRITE_BUFFER_SIZE
  ⟨first, freed, second, drained⟩

/-! ## The retry loop of `write_thread` -/

/-- What the retry loop of `write_thread` has done when it ends: the bytes the
sink has accepted, the final value of `written`, and the `fwrite` calls made,
each as (offset into `fd_buf`, number of bytes requested). -/
structure FlushResult where
  sink : List UInt8
  written : Int
  requests : List (Int × Int)
deriving DecidableEq

/-- The effect of `fwrite(&fd_buf[off], 1, nmemb, fout)` on a sink that accepts
`accepted` of the requested bytes: the bytes `fd_buf[off .. off + accepted)` are
appended, and `accepted` is what the call returns. -/
def fwrite_bytes (fd_buf : Int → UInt8) (off accepted : Int) (sink : List UInt8) :
    List UInt8 :=
  sink ++ (List.range accepted.toNat).map (fun (k : Nat) => fd_buf (off + (k : Int)))

/-- The loop `while (written < bytes_to_write) { wrote = fwrite(&fd_buf[written],
1, bytes_to_write - wrote, fout); written += wrote; }`. The first list gives, call
by call, how many bytes the sink accepts; the loop has not ended (`none`) when
that list is used up while `written < bytes_to_write`. -/
def flush_loop (fd_buf : Int → UInt8) (bytes_to_write : Int) :
    List Int → List UInt8 → Int → Int → List (Int × Int) → Option FlushResult
  | [], sink, written, _, reqs =>
    if written < bytes_to_write then none else some ⟨sink, written, reqs⟩
  | accepted :: rest, sink, written, wrote, reqs =>
    if written < bytes_to_write then
      let nmemb := bytes_to_write - wrote
      flush_loop fd_buf bytes_to_write rest (fwrite_bytes fd_buf written accepted sink)
        (written + accepted) accepted (reqs ++ [(written, nmemb)])
    else some ⟨sink, written, reqs⟩

/-- The statements `int written = 0; wrote = 0;` followed by the retry loop. -/
def flush_chunk (fd_buf : Int → UInt8) (bytes_to_write : Int) (accepts : List Int)
    (sink : List UInt8) : Option FlushResult :=
  flush_loop fd_buf bytes_to_write accepts sink 0 0 []

/-- A staging buffer holding the chunk 10, 20, 30 followed by a stale byte 99. -/
def staged : Int → UInt8 :=
  fun i => if i = 0 then 10 else if i = 1 then 20 else if i = 2 then 30 else 99

/-! ## `write_header` -/

/-- The constant `#define FILE_VERSION (1)`. -/
def FILE_VERSION : Int := 1

/-- A C `double`, given by its 64-bit pattern. -/
structure double where
  bits : Nat

/-- The 4 bytes of an `int` in memory (two's complement, least significant byte
first). -/
def int_bytes (x : Int) : List UInt8 :=
  (List.range 4).map (fun (k : Nat) => UInt8.ofNat ((x % 2 ^ 32).toNat / 256 ^ k % 256))

/-- The 8 bytes of a `double` in memory (least significant byte first). -/
def double_bytes (d : double) : List UInt8 :=
  (List.range 8).map (fun (k : Nat) => UInt8.ofNat (d.bits / 256 ^ k % 256))

/-- The effect of `fwrite(ptr, size, nmemb, fd)` on a sink that accepts
everything: the first `size * nmemb` bytes of the object behind `ptr` are
appended. -/
def fwrite (obj : List UInt8) (size nmemb : Nat) (fd : List UInt8) : List UInt8 :=
  fd ++ obj.take (size * nmemb)

/-- The function `static void write_header(FILE *fd, double sample_rate, double f0, double bw,
double tsweep, int delay, int flags)`; the result is the content of the sink
afterwards. -/
def write_header (fd : List UInt8) (sample_rate f0 bw tsweep : double)
    (delay flags : Int) : List UInt8 :=
  let magic : List UInt8 := [0x46, 0x4D, 0x43, 0x57, 0]
  let version : Int := FILE_VERSION
  let header_length : Int := 4+4+4+ 8+8+8+8+4+4
  let fd := fwrite magic 1 4 fd
  let fd := fwrite (int_bytes version) 4 1 fd
  let fd := fwrite (int_bytes header_length) 4 1 fd
  let fd := fwrite (double_bytes sample_rate) 8 1 fd
  let fd := fwrite (double_bytes f0) 8 1 fd
  let fd := fwrite (double_bytes bw) 8 1 fd
  let fd := fwrite (double_bytes tsweep) 8 1 fd
  let fd := fwrite (int_bytes delay) 4 1 fd
  let fd := fwrite (int_bytes flags) 4 1 fd
  fd

/-! ## `rx_callback` -/

/-- The fields of `hackrf_transfer` that `rx_callback` reads. -/
structure hackrf_transfer where
  buffer : List UInt8
  valid_length : Int

/-- The globals `rx_callback` works on: the ring, whether `fd != NULL`,
`byte_count` (`uint32_t`), `limit_num_samples` and `bytes_to_xfer` (`size_t`,
64 bits wide). -/
structure Globals where
  ring : RingState
  fd_nonnull : Bool
  byte_count : Int
  limit_num_samples : Bool
  bytes_to_xfer : Int

/-- Conversion to `size_t`. -/
def to_size_t (x : Int) : Int := x % 2 ^ 64

/-- Conversion to `uint32_t`. -/
def to_uint32 (x : Int) : Int := x % 2 ^ 32

/-- Conversion to a 32-bit `int`. -/
def to_int (x : Int) : Int := (x + 2 ^ 31) % 2 ^ 32 - 2 ^ 31

/-- The loop `while ( (bytes_left = buf_add(transfer->buffer, bytes_to_write)) )
{ printf("Buffer full\n"); }` with nothing else running: at most `fuel` calls of
`buf_add`; `none` when the loop has not ended by then. -/
def rx_spin (s : List UInt8) (l : Int) : Nat → RingState → Option AddResult
  | 0, _ => none
  | fuel + 1, st =>
    let r := buf_add st s l
    if r.ret ≠ 0 then rx_spin s l fuel r.st else some r

/-- The function `int rx_callback(hackrf_transfer* transfer)`: the globals afterwards and the
returned `int`, or `none` when the spin loop has not ended within `fuel` calls
of `buf_add`. -/
def rx_callback (fuel : Nat) (g : Globals) (transfer : hackrf_transfer) :
    Option (Globals × Int) :=
  if g.fd_nonnull then
    let byte_count := to_uint32 (g.byte_count + to_uint32 transfer.valid_length)
    let bytes_to_write := to_size_t transfer.valid_length
    let bytes_to_write :=
      if g.limit_num_samples = true ∧ bytes_to_write ≥ g.bytes_to_xfer then g.bytes_to_xfer
      else bytes_to_write
    let bytes_to_xfer :=
      if g.limit_num_samples then to_size_t (g.bytes_to_xfer - bytes_to_write)
      else g.bytes_to_xfer
    match rx_spin transfer.buffer (to_int bytes_to_write) fuel g.ring with
    | none => none
    | some r =>
      let bytes_left := r.ret
      let g1 : Globals :=
        ⟨r.st, g.fd_nonnull, byte_count, g.limit_num_samples, bytes_to_xfer⟩
      if bytes_left ≠ 0 ∨ (g.limit_num_samples = true ∧ bytes_to_xfer = 0) then
        some (g1, -1)
      else
        some (g1, 0)
  else
    some (g, -1)

/-- What happens around the ring while the capture runs: the acquisition source
invokes `rx_callback`, or the consumer calls `buf_get`. -/
inductive Event where
  | callback (transfer : hackrf_transfer)
  | drain (dest : Int → UInt8) (max_bytes : Int)

/-- One invocation of `rx_callback` as observed: the globals before, the
transfer, the globals after and the returned value. -/
structure CallRecord where
  before : Globals
  transfer : hackrf_transfer
  after : Globals
  ret : Int

/-- Run a sequence of events; the result is the final globals and the record of
every invocation of `rx_callback`, or `none` when an invocation does not
return. -/
def rx_run (fuel : Nat) : Globals → List Event → Option (Globals × List CallRecord)
  | g, [] => some (g, [])
  | g, Event.callback t :: evs =>
    match rx_callback fuel g t with
    | none => none
    | some (g1, ret) =>
      match rx_run fuel g1 evs with
      | none => none
      | some (gf, log) => some (gf, ⟨g, t, g1, ret⟩ :: log)
  | g, Event.drain dest max_bytes :: evs =>
    rx_run fuel { g with ring := (buf_get g.ring dest max_bytes).st } evs

/-- Every chunk handed to `rx_callback` in the sequence holds `valid_length`
bytes and fits in the free space of the ring at the time of its invocation. -/
inductive ChunksFit (fuel : Nat) : Globals → List Event → Prop where
  | nil (g : Globals) : ChunksFit fuel g []
  | callback (g : Globals) (t : hackrf_transfer) (evs : List Event)
      (hlen : 0 ≤ t.valid_length ∧ t.valid_length ≤ t.buffer.length)
      (hfree : t.valid_length ≤ WRITE_BUFFER_SIZE - 1 - buf_size g.ring)
      (hrest : ∀ g1 ret, rx_callback fuel g t = some (g1, ret) → ChunksFit fuel g1 evs) :
      ChunksFit fuel g (Event.callback t :: evs)
  | drain (g : Globals) (dest : Int → UInt8) (max_bytes : Int) (evs : List Event)
      (hrest : ChunksFit fuel { g with ring := (buf_get g.ring dest max_bytes).st } evs) :
      ChunksFit fuel g (Event.drain dest max_bytes :: evs)

/-- The globals of the quota example: empty ring, open sink, limit active with
a quota of 10000 bytes. -/
def quota_globals : Globals := ⟨initial_ring, true, 0, true, 10000⟩

/-- The chunk of the quota example: 12000 bytes. -/
def quota_chunk : hackrf_transfer := ⟨List.replicate 12000 1, 12000⟩

/-- The chunks handed to `rx_callback` in a sequence of events, in order. -/
def transfers_of : List Event → List hackrf_transfer
  | [] => []
  | Event.callback t :: evs => t :: transfers_of evs
  | Event.drain _ _ :: evs => transfers_of evs
/-! ## The two loops -/

theorem wbs_eq : WRITE_BUFFER_SIZE = 52428800 := by decide

theorem buf_get_loop_spec (n : Nat) :
    ∀ (st : RingState) (dest : Int → UInt8) (i : Int),
      0 ≤ st.fb_start → st.fb_start < WRITE_BUFFER_SIZE →
      (buf_get_loop n st dest i).ret = i + n ∧
      (buf_get_loop n st dest i).st.fb_start = (st.fb_start + n) % WRITE_BUFFER_SIZE ∧
      (buf_get_loop n st dest i).st.fb_end = st.fb_end ∧
      (buf_get_loop n st dest i).st.fwrite_buffer = st.fwrite_buffer ∧
      ∀ j, (buf_get_loop n st dest i).dest j =
        if i ≤ j ∧ j < i + n then
          st.fwrite_buffer ((st.fb_start + (j - i)) % WRITE_BUFFER_SIZE)
        else dest j := by
  induction n with
  | zero =>
    intro st dest i h0 h1
    rw [wbs_eq] at *
    refine ⟨by simp [buf_get_loop], ?_, rfl, rfl, ?_⟩
    · simp only [buf_get_loop]; omega
    · intro j
      simp only [buf_get_loop]
      rw [if_neg (by omega)]
  | succ n ih =>
    intro st dest i h0 h1
    have ht : Int.tmod (st.fb_start + 1) WRITE_BUFFER_SIZE
        = (st.fb_start + 1) % WRITE_BUFFER_SIZE :=
      Int.tmod_eq_emod (by omega) (by decide)
    have hr := ih { st with fb_start := Int.tmod (st.fb_start + 1) WRITE_BUFFER_SIZE }
      (Function.update dest i (st.fwrite_buffer st.fb_start)) (i + 1)
      (by show 0 ≤ Int.tmod _ _; rw [ht, wbs_eq]; omega)
      (by show Int.tmod _ _ < _; rw [ht, wbs_eq]; omega)
    simp only [buf_get_loop]
    obtain ⟨r1, r2, r3, r4, r5⟩ := hr
    rw [wbs_eq] at *
    refine ⟨?_, ?_, r3, r4, ?_⟩
    · rw [r1]; push_cast; omega
    · rw [r2]; show (Int.tmod _ _ + _) % _ = _; rw [ht]; push_cast; omega
    · intro j
      rw [r5]
      show (if _ then st.fwrite_buffer ((Int.tmod _ _ + _) % _) else _) = _
      rw [ht, Function.update_apply]
      by_cases hj : j = i
      · subst hj
        rw [if_neg (by omega), if_pos rfl, if_pos (by push_cast; omega)]
        congr 1; omega
      · by_cases hlt : i + 1 ≤ j ∧ j < i + 1 + n
        · rw [if_pos hlt, if_pos (by push_cast; omega)]
          congr 1; omega
        · rw [if_neg hlt, if_neg hj, if_neg (by push_cast; omega)]

theorem buf_add_loop_spec (s : List UInt8) (l : Int) (n : Nat) :
    ∀ (st : RingState) (fb left : Int),
      0 ≤ fb → fb < WRITE_BUFFER_SIZE →
      0 ≤ st.fb_start → st.fb_start < WRITE_BUFFER_SIZE → left = n →
      (buf_add_loop s l n st fb st.fb_start left).st.fb_start = st.fb_start ∧
      (n ≤ (st.fb_start - 1 - fb) % WRITE_BUFFER_SIZE →
        (buf_add_loop s l n st fb st.fb_start left).ret = 0 ∧
        (buf_add_loop s l n st fb st.fb_start left).st.fb_end
          = (fb + n) % WRITE_BUFFER_SIZE) ∧
      ((st.fb_start - 1 - fb) % WRITE_BUFFER_SIZE < n →
        (buf_add_loop s l n st fb st.fb_start left).ret
          = n - (st.fb_start - 1 - fb) % WRITE_BUFFER_SIZE ∧
        (buf_add_loop s l n st fb st.fb_start left).st.fb_end = st.fb_end) ∧
      ∀ j, (buf_add_loop s l n st fb st.fb_start left).st.fwrite_buffer j =
        if 0 ≤ j ∧ j < WRITE_BUFFER_SIZE ∧
            (j - fb) % WRITE_BUFFER_SIZE < min (n : Int) ((st.fb_start - 1 - fb) % WRITE_BUFFER_SIZE)
        then s.getD (l - left + (j - fb) % WRITE_BUFFER_SIZE).toNat 0
        else st.fwrite_buffer j := by
  induction n with
  | zero =>
    intro st fb left h0 h1 h2 h3 hl
    rw [wbs_eq] at *
    simp only [buf_add_loop]
    refine ⟨trivial, fun _ => ⟨by simpa using hl, by push_cast; omega⟩, fun h => by omega, ?_⟩
    intro j
    rw [if_neg (by omega)]
  | succ n ih =>
    intro st fb left h0 h1 h2 h3 hl
    simp only [buf_add_loop]
    have hnext : (if fb + 1 ≥ WRITE_BUFFER_SIZE then fb + 1 - WRITE_BUFFER_SIZE else fb + 1)
        = (fb + 1) % WRITE_BUFFER_SIZE := by
      rw [wbs_eq] at *; split <;> omega
    rw [hnext]
    have hs1 : (if (fb + 1) % WRITE_BUFFER_SIZE = st.fb_start then st.fb_start else st.fb_start)
        = st.fb_start := by split <;> rfl
    rw [hs1]
    by_cases hfull : (fb + 1) % WRITE_BUFFER_SIZE = st.fb_start
    · rw [if_pos ⟨hfull, hfull⟩]
      rw [wbs_eq] at *
      have hfree : (st.fb_start - 1 - fb) % 52428800 = 0 := by omega
      refine ⟨rfl, fun h => by omega, fun _ => ⟨by rw [hfree, hl]; push_cast; omega, rfl⟩, ?_⟩
      intro j
      rw [if_neg (by omega)]
    · rw [if_neg (fun h => hfull h.1)]
      have hr := ih
        (RingState.mk (Function.update st.fwrite_buffer fb (s.getD (l - left).toNat 0))
          st.fb_start st.fb_end)
        ((fb + 1) % WRITE_BUFFER_SIZE) (left - 1)
        (by rw [wbs_eq]; omega) (by rw [wbs_eq]; omega) h2 h3 (by rw [hl]; push_cast; omega)
      obtain ⟨r1, r2, r3, r4⟩ := hr
      rw [wbs_eq] at *
      have hfree : (st.fb_start - 1 - (fb + 1) % 52428800) % 52428800
          = (st.fb_start - 1 - fb) % 52428800 - 1 := by omega
      simp only [hfree] at r2 r3 r4
      refine ⟨r1, ?_, ?_, ?_⟩
      · intro h
        obtain ⟨a, b⟩ := r2 (by push_cast at h; omega)
        exact ⟨a, by rw [b]; push_cast; omega⟩
      · intro h
        obtain ⟨a, b⟩ := r3 (by push_cast at h; omega)
        exact ⟨by rw [a]; push_cast; omega, b⟩
      · intro j
        rw [r4 j]
        show (if _ then _ else Function.update st.fwrite_buffer fb _ j) = _
        rw [Function.update_apply]
        by_cases hj : j = fb
        · subst hj
          rw [if_neg (by omega), if_pos rfl, if_pos (by push_cast; omega)]
          congr 1; omega
        · rw [if_neg hj]
          by_cases hc : 0 ≤ j ∧ j < 52428800 ∧
              (j - (fb + 1) % 52428800) % 52428800
                < min (n : Int) ((st.fb_start - 1 - fb) % 52428800 - 1)
          · rw [if_pos hc, if_pos (by push_cast; omega)]
            congr 1; omega
          · rw [if_neg hc, if_neg (by push_cast; omega)]

/-! ## Summaries of `buf_size`, `buf_get` and `buf_add` -/

theorem buf_size_eq (st : RingState) (h : InRange st) :
    buf_size st = (st.fb_end - st.fb_start) % WRITE_BUFFER_SIZE ∧
    0 ≤ buf_size st ∧ buf_size st < WRITE_BUFFER_SIZE := by
  obtain ⟨h1, h2, h3, h4⟩ := h
  unfold buf_size
  rw [wbs_eq] at *
  simp only []
  split <;> omega

theorem src_bytes_length (s : List UInt8) : src_bytes s s.length = s := by
  unfold src_bytes
  apply List.ext_getElem
  · simp
  · intro n h1 h2
    simp at h1
    simp [List.getD_eq_getElem?_getD, List.getElem?_eq_getElem h2]

theorem src_bytes_take (s : List UInt8) (l : Int) (h : l ≤ s.length) :
    src_bytes s l = s.take l.toNat := by
  unfold src_bytes
  apply List.ext_getElem
  · simp; omega
  · intro n h1 h2
    simp at h1 h2
    simp [List.getD_eq_getElem?_getD, List.getElem?_eq_getElem h2.2]

/-- Summary of `buf_get`: it delivers the `n = max 0 (min (buf_size) max_bytes)`
oldest bytes and advances `fb_start` by `n`. -/
theorem buf_get_spec (st : RingState) (dest : Int → UInt8) (max_bytes : Int)
    (h : InRange st) :
    (buf_get st dest max_bytes).ret = max 0 (min (buf_size st) max_bytes) ∧
    (buf_get st dest max_bytes).st.fb_start
      = (st.fb_start + max 0 (min (buf_size st) max_bytes)) % WRITE_BUFFER_SIZE ∧
    (buf_get st dest max_bytes).st.fb_end = st.fb_end ∧
    (buf_get st dest max_bytes).st.fwrite_buffer = st.fwrite_buffer ∧
    ∀ j, (buf_get st dest max_bytes).dest j =
      if 0 ≤ j ∧ j < max 0 (min (buf_size st) max_bytes) then
        st.fwrite_buffer ((st.fb_start + j) % WRITE_BUFFER_SIZE)
      else dest j := by
  have hs := buf_size_eq st h
  obtain ⟨h1, h2, h3, h4⟩ := h
  have key : ∀ b : Int, b = (if (if st.fb_end - st.fb_start < 0
        then st.fb_end - st.fb_start + WRITE_BUFFER_SIZE else st.fb_end - st.fb_start) > max_bytes
        then max_bytes else (if st.fb_end - st.fb_start < 0
        then st.fb_end - st.fb_start + WRITE_BUFFER_SIZE else st.fb_end - st.fb_start)) →
      ((b.toNat : Int) = max 0 (min (buf_size st) max_bytes)) := by
    intro b hb
    unfold buf_size
    simp only []
    rw [hb]
    split <;> split <;> omega
  have hk := key _ rfl
  obtain ⟨r1, r2, r3, r4, r5⟩ := buf_get_loop_spec _ st dest 0 h1 h2
  unfold buf_get
  simp only []
  rw [hk] at r1 r2 r5
  refine ⟨by rw [r1]; omega, r2, r3, r4, ?_⟩
  intro j
  rw [r5 j]
  simp

theorem buf_get_inRange (st : RingState) (dest : Int → UInt8) (max_bytes : Int)
    (h : InRange st) :
    InRange (buf_get st dest max_bytes).st ∧
    buf_size (buf_get st dest max_bytes).st
      = buf_size st - max 0 (min (buf_size st) max_bytes) := by
  obtain ⟨r1, r2, r3, r4, r5⟩ := buf_get_spec st dest max_bytes h
  have hs := buf_size_eq st h
  have hin : InRange (buf_get st dest max_bytes).st := by
    obtain ⟨h1, h2, h3, h4⟩ := h
    refine ⟨?_, ?_, ?_, ?_⟩
    · rw [r2, wbs_eq]; omega
    · rw [r2, wbs_eq]; omega
    · rw [r3]; exact h3
    · rw [r3]; exact h4
  refine ⟨hin, ?_⟩
  have hs2 := buf_size_eq _ hin
  rw [hs2.1, r2, r3]
  obtain ⟨h1, h2, h3, h4⟩ := h
  rw [wbs_eq] at *
  omega

theorem buf_get_delivers (st : RingState) (dest : Int → UInt8) (max_bytes : Int)
    (h : InRange st) :
    dest_bytes (buf_get st dest max_bytes).dest (buf_get st dest max_bytes).ret
      = (contents st).take (max 0 (min (buf_size st) max_bytes)).toNat ∧
    contents (buf_get st dest max_bytes).st
      = (contents st).drop (max 0 (min (buf_size st) max_bytes)).toNat := by
  obtain ⟨r1, r2, r3, r4, r5⟩ := buf_get_spec st dest max_bytes h
  obtain ⟨hin, hsz⟩ := buf_get_inRange st dest max_bytes h
  have hs := buf_size_eq st h
  generalize hn : max 0 (min (buf_size st) max_bytes) = n at *
  have hn0 : 0 ≤ n := by omega
  have hnle : n ≤ buf_size st := by omega
  constructor
  · unfold dest_bytes contents
    rw [r1, ← List.map_take, List.take_range,
      Nat.min_eq_left (by omega)]
    apply List.map_congr_left
    intro k hk
    rw [List.mem_range] at hk
    rw [r5, if_pos (by omega)]
  · unfold contents
    rw [hsz, r2, r4]
    have hsplit : (buf_size st).toNat = n.toNat + (buf_size st - n).toNat := by omega
    rw [hsplit, List.range_add, List.map_append, List.drop_left' (by simp),
      List.map_map]
    apply List.map_congr_left
    intro k hk
    rw [List.mem_range] at hk
    simp only [Function.comp]
    congr 1
    obtain ⟨h1, h2, h3, h4⟩ := h
    rw [wbs_eq] at *
    push_cast
    omega

theorem free_eq (st : RingState) (h : InRange st) :
    (st.fb_start - 1 - st.fb_end) % WRITE_BUFFER_SIZE
      = WRITE_BUFFER_SIZE - 1 - buf_size st := by
  have hs := buf_size_eq st h
  obtain ⟨h1, h2, h3, h4⟩ := h
  rw [wbs_eq] at *
  omega

/-- What `buf_add` does when the input fits: everything is stored and committed. -/
theorem buf_add_ok (st : RingState) (s : List UInt8) (l : Int) (h : InRange st)
    (h0 : 0 ≤ l) (hfit : l ≤ WRITE_BUFFER_SIZE - 1 - buf_size st) :
    (buf_add st s l).ret = 0 ∧
    (buf_add st s l).st.fb_start = st.fb_start ∧
    (buf_add st s l).st.fb_end = (st.fb_end + l) % WRITE_BUFFER_SIZE ∧
    InRange (buf_add st s l).st ∧
    buf_size (buf_add st s l).st = buf_size st + l ∧
    contents (buf_add st s l).st = contents st ++ src_bytes s l := by
  have hs := buf_size_eq st h
  have hf := free_eq st h
  obtain ⟨r1, r2, r3, r4⟩ := buf_add_loop_spec s l l.toNat st st.fb_end l h.2.2.1 h.2.2.2 h.1 h.2.1
    (by omega)
  rw [hf] at r2 r4
  have hl : ((l.toNat : Nat) : Int) = l := by omega
  rw [hl] at r2 r4
  obtain ⟨a, b⟩ := r2 hfit
  have hin : InRange (buf_add st s l).st := by
    obtain ⟨h1, h2, h3, h4⟩ := h
    refine ⟨?_, ?_, ?_, ?_⟩
    · show 0 ≤ (buf_add_loop _ _ _ _ _ _ _).st.fb_start; rw [r1]; exact h1
    · show (buf_add_loop _ _ _ _ _ _ _).st.fb_start < _; rw [r1]; exact h2
    · show 0 ≤ (buf_add_loop _ _ _ _ _ _ _).st.fb_end; rw [b, wbs_eq]; omega
    · show (buf_add_loop _ _ _ _ _ _ _).st.fb_end < _; rw [b, wbs_eq]; omega
  have hs2 := buf_size_eq _ hin
  have hsz : buf_size (buf_add st s l).st = buf_size st + l := by
    rw [hs2.1]
    show ((buf_add_loop _ _ _ _ _ _ _).st.fb_end - (buf_add_loop _ _ _ _ _ _ _).st.fb_start) % _ = _
    rw [b, r1]
    obtain ⟨h1, h2, h3, h4⟩ := h
    rw [wbs_eq] at *
    omega
  refine ⟨a, r1, b, hin, hsz, ?_⟩
  unfold contents src_bytes
  rw [hsz]
  have hsplit : (buf_size st + l).toNat = (buf_size st).toNat + l.toNat := by omega
  rw [hsplit, List.range_add, List.map_append, List.map_map]
  have hb : ∀ j, (buf_add st s l).st.fwrite_buffer j = _ := r4
  have hst : (buf_add st s l).st.fb_start = st.fb_start := r1
  obtain ⟨h1, h2, h3, h4⟩ := h
  congr 1
  · apply List.map_congr_left
    intro k hk
    rw [List.mem_range] at hk
    rw [hb, hst, if_neg]
    rw [wbs_eq] at *
    omega
  · apply List.map_congr_left
    intro k hk
    rw [List.mem_range] at hk
    simp only [Function.comp]
    rw [hb, hst, if_pos]
    · congr 1
      rw [wbs_eq] at *
      push_cast
      omega
    · rw [wbs_eq] at *
      push_cast
      omega

/-- What `buf_add` does when the input exceeds the free space: the early `return left`
reports the excess, nothing is committed, and only free slots were written. -/
theorem buf_add_full (st : RingState) (s : List UInt8) (l : Int) (h : InRange st)
    (hfull : WRITE_BUFFER_SIZE - 1 - buf_size st < l) :
    (buf_add st s l).ret = l - (WRITE_BUFFER_SIZE - 1 - buf_size st) ∧
    (buf_add st s l).st.fb_start = st.fb_start ∧
    (buf_add st s l).st.fb_end = st.fb_end ∧
    (∀ j, (buf_add st s l).st.fwrite_buffer j =
      if 0 ≤ j ∧ j < WRITE_BUFFER_SIZE ∧
          (j - st.fb_end) % WRITE_BUFFER_SIZE < WRITE_BUFFER_SIZE - 1 - buf_size st
      then s.getD ((j - st.fb_end) % WRITE_BUFFER_SIZE).toNat 0
      else st.fwrite_buffer j) ∧
    contents (buf_add st s l).st = contents st := by
  have hs := buf_size_eq st h
  have hf := free_eq st h
  have h0 : 0 ≤ l := by omega
  obtain ⟨r1, r2, r3, r4⟩ := buf_add_loop_spec s l l.toNat st st.fb_end l h.2.2.1 h.2.2.2 h.1 h.2.1
    (by omega)
  rw [hf] at r3 r4
  have hl : ((l.toNat : Nat) : Int) = l := by omega
  rw [hl] at r3 r4
  obtain ⟨a, b⟩ := r3 hfull
  have hb : ∀ j, (buf_add st s l).st.fwrite_buffer j =
      if 0 ≤ j ∧ j < WRITE_BUFFER_SIZE ∧
          (j - st.fb_end) % WRITE_BUFFER_SIZE < WRITE_BUFFER_SIZE - 1 - buf_size st
      then s.getD ((j - st.fb_end) % WRITE_BUFFER_SIZE).toNat 0
      else st.fwrite_buffer j := by
    intro j
    have := r4 j
    rw [min_eq_right (by omega), sub_self, zero_add] at this
    exact this
  have hst : (buf_add st s l).st.fb_start = st.fb_start := r1
  have hen : (buf_add st s l).st.fb_end = st.fb_end := b
  refine ⟨a, r1, b, hb, ?_⟩
  have hsz : buf_size (buf_add st s l).st = buf_size st := by
    unfold buf_size; rw [hst, hen]
  unfold contents
  rw [hsz, hst]
  apply List.map_congr_left
  intro k hk
  rw [List.mem_range] at hk
  rw [hb, if_neg]
  obtain ⟨h1, h2, h3, h4⟩ := h
  rw [wbs_eq] at *
  omega

/-! ## The ring buffer: FIFO order and occupancy -/

theorem run_ops_snoc (st : RingState) (ops : List Op) (op : Op) :
    run_ops st (ops ++ [op]) = (run_ops st ops).step op := by
  simp [run_ops, List.foldl_append]

/-- Along every sequence of calls from an in-range state the indices stay in
range. -/
theorem run_ops_inRange (st : RingState) (h : InRange st) (ops : List Op) :
    InRange (run_ops st ops).st := by
  induction ops using List.reverseRecOn with
  | nil => exact h
  | append_singleton ops op ih =>
    rw [run_ops_snoc]
    cases op with
    | add s =>
      show InRange (buf_add (run_ops st ops).st s s.length).st
      by_cases hfit : (s.length : Int) ≤ WRITE_BUFFER_SIZE - 1 - buf_size (run_ops st ops).st
      · exact (buf_add_ok _ s _ ih (by omega) hfit).2.2.2.1
      · obtain ⟨-, a, b, -, -⟩ := buf_add_full _ s _ ih (not_le.mp hfit)
        unfold InRange
        rw [a, b]
        exact ih
    | get dest m =>
      exact (buf_get_inRange _ dest m ih).1

/-- C1. FIFO round trip: from an empty ring, along every interleaving of
`buf_add` calls that all return 0 and `buf_get` calls, the bytes delivered by
`buf_get` are, in order, a leading part of the bytes passed to `buf_add`, and
they are all of them whenever `buf_size()` is 0 afterwards. -/
theorem fifo_round_trip (st : RingState) (ops : List Op)
    (h : InRange st) (hempty : st.fb_start = st.fb_end)
    (hok : ∀ r ∈ (run_ops st ops).add_rets, r = 0) :
    (run_ops st ops).got <+: (run_ops st ops).added ∧
    (buf_size (run_ops st ops).st = 0 → (run_ops st ops).got = (run_ops st ops).added) := by
  have inv : (run_ops st ops).added = (run_ops st ops).got ++ contents (run_ops st ops).st := by
    induction ops using List.reverseRecOn with
    | nil =>
      have : buf_size st = 0 := by unfold buf_size; rw [hempty]; simp
      simp [run_ops, Trace.start, contents, this]
    | append_singleton ops op ih =>
      have hin := run_ops_inRange st h ops
      rw [run_ops_snoc] at hok ⊢
      cases op with
      | add s =>
        have hret : (buf_add (run_ops st ops).st s s.length).ret = 0 :=
          hok _ (by simp [Trace.step])
        have ih2 := ih (fun r hr => hok r (by simp [Trace.step, hr]))
        have hfit : (s.length : Int) ≤ WRITE_BUFFER_SIZE - 1 - buf_size (run_ops st ops).st := by
          by_contra hc
          have := (buf_add_full _ s _ hin (not_le.mp hc)).1
          omega
        have hc := (buf_add_ok _ s _ hin (by omega) hfit).2.2.2.2.2
        show (run_ops st ops).added ++ s
          = (run_ops st ops).got ++ contents (buf_add (run_ops st ops).st s s.length).st
        rw [hc, src_bytes_length, ih2, List.append_assoc]
      | get dest m =>
        have ih2 := ih (fun r hr => hok r (by simpa [Trace.step] using hr))
        obtain ⟨d1, d2⟩ := buf_get_delivers _ dest m hin
        show (run_ops st ops).added
          = ((run_ops st ops).got ++ dest_bytes _ _) ++ contents (buf_get (run_ops st ops).st dest m).st
        rw [d1, d2, List.append_assoc, List.take_append_drop]
        exact ih2
  refine ⟨⟨_, inv.symm⟩, fun hz => ?_⟩
  have : contents (run_ops st ops).st = [] := by
    unfold contents; rw [hz]; rfl
  rw [inv, this, List.append_nil]

/-- Witness of C1: on a ring whose indices wrap, two bytes in, one out, two more in
(returning 0 each time), the rest out. -/
theorem fifo_round_trip_witness :
    InRange empty_at_end ∧ empty_at_end.fb_start = empty_at_end.fb_end ∧
    (∀ r ∈ (run_ops empty_at_end
        [Op.add [1, 2], Op.get (fun _ => 0) 1, Op.add [3, 4], Op.get (fun _ => 0) 8]).add_rets,
      r = 0) ∧
    (run_ops empty_at_end
        [Op.add [1, 2], Op.get (fun _ => 0) 1, Op.add [3, 4], Op.get (fun _ => 0) 8]).got
      = [1, 2, 3, 4] ∧
    (run_ops empty_at_end
        [Op.add [1, 2], Op.get (fun _ => 0) 1, Op.add [3, 4], Op.get (fun _ => 0) 8]).got
      = (run_ops empty_at_end
        [Op.add [1, 2], Op.get (fun _ => 0) 1, Op.add [3, 4], Op.get (fun _ => 0) 8]).added :=
  ⟨by decide, rfl, by decide, by decide,
    (fifo_round_trip empty_at_end _ (by decide) rfl (by decide)).2 (by decide)⟩

theorem start_st (st : RingState) : (Trace.start st).st = st := rfl

theorem run_ops_single (st : RingState) (op : Op) :
    run_ops st [op] = (Trace.start st).step op := rfl

theorem step_add_st (t : Trace) (s : List UInt8) :
    (t.step (Op.add s)).st = (buf_add t.st s s.length).st := rfl

theorem step_add_rets (t : Trace) (s : List UInt8) :
    (t.step (Op.add s)).add_rets = t.add_rets ++ [(buf_add t.st s s.length).ret] := rfl

theorem step_add_written (t : Trace) (s : List UInt8) :
    (t.step (Op.add s)).totalBytesWritten
      = t.totalBytesWritten + (s.length - (buf_add t.st s s.length).ret) := rfl

theorem step_add_read (t : Trace) (s : List UInt8) :
    (t.step (Op.add s)).totalBytesRead = t.totalBytesRead := rfl

/-- C6 as stated fails: from the empty ring, one `buf_add` of
`WRITE_BUFFER_SIZE` bytes returns 1 and commits nothing, so `buf_size()` is 0
while length minus leftover is `WRITE_BUFFER_SIZE - 1`. -/
theorem occupancy_accounting_counterexample :
    (run_ops initial_ring [Op.add (List.replicate 52428800 0)]).add_rets = [1] ∧
    buf_size (run_ops initial_ring [Op.add (List.replicate 52428800 0)]).st = 0 ∧
    (run_ops initial_ring [Op.add (List.replicate 52428800 0)]).totalBytesWritten
      - (run_ops initial_ring [Op.add (List.replicate 52428800 0)]).totalBytesRead
      = 52428799 := by
  have hin : InRange initial_ring := by decide
  have hsz : buf_size initial_ring = 0 := by decide
  have hlen : ((List.replicate 52428800 (0 : UInt8)).length : Int) = 52428800 := by
    rw [List.length_replicate]; rfl
  obtain ⟨a, b, c, -, -⟩ := buf_add_full initial_ring (List.replicate 52428800 0)
    ((List.replicate 52428800 (0 : UInt8)).length) hin (by rw [hsz, hlen, wbs_eq]; decide)
  have a1 : (buf_add initial_ring (List.replicate 52428800 0)
      ((List.replicate 52428800 (0 : UInt8)).length)).ret = 1 := by
    rw [a, hsz, hlen, wbs_eq]; rfl
  rw [run_ops_single]
  refine ⟨?_, ?_, ?_⟩
  · rw [step_add_rets, start_st, a1]; rfl
  · rw [step_add_st, start_st]
    unfold buf_size
    rw [b, c]; rfl
  · rw [step_add_written, step_add_read, start_st, a1, hlen]; rfl

/-- C6, amended. Along every sequence of `buf_add` and `buf_get` calls from an
empty ring, `buf_size()` lies in `[0, WRITE_BUFFER_SIZE)`, equals
`(fb_end - fb_start) mod WRITE_BUFFER_SIZE`, and equals the total length of the
`buf_add` calls that returned 0 minus the sum of the `buf_get` return values. -/
theorem occupancy_accounting (st : RingState) (ops : List Op)
    (h : InRange st) (hempty : st.fb_start = st.fb_end) :
    0 ≤ buf_size (run_ops st ops).st ∧
    buf_size (run_ops st ops).st < WRITE_BUFFER_SIZE ∧
    buf_size (run_ops st ops).st
      = ((run_ops st ops).st.fb_end - (run_ops st ops).st.fb_start) % WRITE_BUFFER_SIZE ∧
    buf_size (run_ops st ops).st
      = (run_ops st ops).totalBytesCommitted - (run_ops st ops).totalBytesRead := by
  have hs := buf_size_eq _ (run_ops_inRange st h ops)
  refine ⟨hs.2.1, hs.2.2, hs.1, ?_⟩
  induction ops using List.reverseRecOn with
  | nil =>
    have : buf_size st = 0 := by unfold buf_size; rw [hempty]; simp
    simp [run_ops, Trace.start, this]
  | append_singleton ops op ih =>
    have hin := run_ops_inRange st h ops
    have ih2 := ih (buf_size_eq _ hin)
    rw [run_ops_snoc]
    cases op with
    | add s =>
      show buf_size (buf_add (run_ops st ops).st s s.length).st
        = ((run_ops st ops).totalBytesCommitted
            + (if (buf_add (run_ops st ops).st s s.length).ret = 0 then (s.length : Int) else 0))
          - (run_ops st ops).totalBytesRead
      by_cases hfit : (s.length : Int) ≤ WRITE_BUFFER_SIZE - 1 - buf_size (run_ops st ops).st
      · obtain ⟨a, -, -, -, b, -⟩ := buf_add_ok _ s _ hin (by omega) hfit
        rw [a, b, if_pos rfl]; omega
      · obtain ⟨a, b, c, -, -⟩ := buf_add_full _ s _ hin (not_le.mp hfit)
        have : buf_size (buf_add (run_ops st ops).st s s.length).st
            = buf_size (run_ops st ops).st := by
          unfold buf_size; rw [b, c]
        rw [this, if_neg (by omega)]; omega
    | get dest m =>
      show buf_size (buf_get (run_ops st ops).st dest m).st
        = (run_ops st ops).totalBytesCommitted
          - ((run_ops st ops).totalBytesRead + (buf_get (run_ops st ops).st dest m).ret)
      rw [(buf_get_inRange _ dest m hin).2, (buf_get_spec _ dest m hin).1]
      omega

/-- Witness of C6 on a ring whose indices wrap. -/
theorem occupancy_accounting_witness :
    InRange empty_at_end ∧ empty_at_end.fb_start = empty_at_end.fb_end ∧
    buf_size (run_ops empty_at_end [Op.add [1, 2, 3], Op.get (fun _ => 0) 1]).st = 2 ∧
    buf_size (run_ops empty_at_end [Op.add [1, 2, 3], Op.get (fun _ => 0) 1]).st
      = (run_ops empty_at_end [Op.add [1, 2, 3], Op.get (fun _ => 0) 1]).totalBytesCommitted
        - (run_ops empty_at_end [Op.add [1, 2, 3], Op.get (fun _ => 0) 1]).totalBytesRead :=
  ⟨by decide, rfl, by decide,
    (occupancy_accounting empty_at_end _ (by decide) rfl).2.2.2⟩

/-! ## `buf_get`: the read contract -/

/-- C8. Read contract of `buf_get`: for indices in range and `max_bytes >= 0`
it returns `n = min(buf_size(), max_bytes)`, writes to `dest[0 .. n)` the bytes
at `fb_start, fb_start+1, ...` (modulo `WRITE_BUFFER_SIZE`) and nothing else,
advances `fb_start` by `n` modulo `WRITE_BUFFER_SIZE`, leaves `fb_end` and the
array unchanged, and on an empty ring returns 0 and changes nothing. -/
theorem buf_get_contract (st : RingState) (dest : Int → UInt8) (max_bytes : Int)
    (h : InRange st) (hm : 0 ≤ max_bytes) :
    (buf_get st dest max_bytes).ret = min (buf_size st) max_bytes ∧
    (∀ k : Nat, (k : Int) < (buf_get st dest max_bytes).ret →
      (buf_get st dest max_bytes).dest k
        = st.fwrite_buffer ((st.fb_start + k) % WRITE_BUFFER_SIZE)) ∧
    (∀ j : Int, j < 0 ∨ (buf_get st dest max_bytes).ret ≤ j →
      (buf_get st dest max_bytes).dest j = dest j) ∧
    dest_bytes (buf_get st dest max_bytes).dest (buf_get st dest max_bytes).ret
      = (contents st).take (buf_get st dest max_bytes).ret.toNat ∧
    (buf_get st dest max_bytes).st.fb_start
      = (st.fb_start + (buf_get st dest max_bytes).ret) % WRITE_BUFFER_SIZE ∧
    (buf_get st dest max_bytes).st.fb_end = st.fb_end ∧
    (buf_get st dest max_bytes).st.fwrite_buffer = st.fwrite_buffer ∧
    (buf_size st = 0 →
      (buf_get st dest max_bytes).ret = 0 ∧
      (buf_get st dest max_bytes).st = st ∧
      (buf_get st dest max_bytes).dest = dest) := by
  obtain ⟨r1, r2, r3, r4, r5⟩ := buf_get_spec st dest max_bytes h
  have hd := (buf_get_delivers st dest max_bytes h).1
  have hs := buf_size_eq st h
  have hn : max 0 (min (buf_size st) max_bytes) = min (buf_size st) max_bytes := by omega
  rw [hn] at r1 r2 r5 hd
  refine ⟨r1, ?_, ?_, ?_, ?_, r3, r4, ?_⟩
  · intro k hk
    rw [r1] at hk
    rw [r5, if_pos ⟨by omega, hk⟩]
  · intro j hj
    rw [r1] at hj
    rw [r5, if_neg (by omega)]
  · rw [hd, r1]
  · rw [r2, r1]
  · intro hz
    have hret : (buf_get st dest max_bytes).ret = 0 := by rw [r1, hz]; omega
    refine ⟨hret, ?_, ?_⟩
    · have hstart : (buf_get st dest max_bytes).st.fb_start = st.fb_start := by
        rw [r2, hz]
        obtain ⟨h1, h2, -, -⟩ := h
        rw [wbs_eq] at *
        omega
      cases hg : (buf_get st dest max_bytes).st with
      | mk b s e =>
        rw [hg] at r3 r4 hstart
        cases st
        simp only [RingState.mk.injEq] at *
        exact ⟨r4, hstart, r3⟩
    · funext j
      rw [r5, if_neg]
      rw [hz]
      omega

/-- Witness of C8: a ring holding the three bytes 5, 6, 7 across the wrap,
read with `max_bytes = 2`. -/
theorem buf_get_contract_witness :
    InRange ⟨fun i => if i = 52428799 then 5 else if i = 0 then 6 else 7, 52428799, 2⟩ ∧
    (buf_get ⟨fun i => if i = 52428799 then 5 else if i = 0 then 6 else 7, 52428799, 2⟩
      (fun _ => 0) 2).ret = 2 ∧
    dest_bytes
      (buf_get ⟨fun i => if i = 52428799 then 5 else if i = 0 then 6 else 7, 52428799, 2⟩
        (fun _ => 0) 2).dest 2 = [5, 6] ∧
    (buf_get ⟨fun i => if i = 52428799 then 5 else if i = 0 then 6 else 7, 52428799, 2⟩
      (fun _ => 0) 2).st.fb_start = 1 ∧
    (buf_get ⟨fun i => if i = 52428799 then 5 else if i = 0 then 6 else 7, 52428799, 2⟩
      (fun _ => 0) 2).st.fb_end = 2 :=
  ⟨by decide, by decide, by decide, by decide,
    (buf_get_contract ⟨fun i => if i = 52428799 then 5 else if i = 0 then 6 else 7, 52428799, 2⟩
      (fun _ => 0) 2 (by decide) (by decide)).2.2.2.2.2.1⟩

/-! ## `buf_add`: what a full ring does -/

theorem buf_add_ret_zero_iff (st : RingState) (s : List UInt8) (h : InRange st) :
    (buf_add st s s.length).ret = 0 ↔
      (s.length : Int) ≤ WRITE_BUFFER_SIZE - 1 - buf_size st := by
  constructor
  · intro hret
    by_contra hc
    have := (buf_add_full st s _ h (not_le.mp hc)).1
    omega
  · intro hfit
    exact (buf_add_ok st s _ h (by omega) hfit).1

/-- The consumer cannot tell two rings apart that agree on the indices and on
the occupied slots. -/
theorem buf_get_congr (st st2 : RingState) (dest : Int → UInt8) (max_bytes : Int)
    (h : InRange st) (hs : st2.fb_start = st.fb_start) (he : st2.fb_end = st.fb_end)
    (hocc : ∀ k : Nat, (k : Int) < buf_size st →
      st2.fwrite_buffer ((st.fb_start + k) % WRITE_BUFFER_SIZE)
        = st.fwrite_buffer ((st.fb_start + k) % WRITE_BUFFER_SIZE)) :
    (buf_get st2 dest max_bytes).ret = (buf_get st dest max_bytes).ret ∧
    (buf_get st2 dest max_bytes).dest = (buf_get st dest max_bytes).dest ∧
    (buf_get st2 dest max_bytes).st.fb_start = (buf_get st dest max_bytes).st.fb_start ∧
    (buf_get st2 dest max_bytes).st.fb_end = (buf_get st dest max_bytes).st.fb_end := by
  have h2 : InRange st2 := by unfold InRange; rw [hs, he]; exact h
  have hsz : buf_size st2 = buf_size st := by unfold buf_size; rw [hs, he]
  obtain ⟨r1, r2, r3, -, r5⟩ := buf_get_spec st dest max_bytes h
  obtain ⟨q1, q2, q3, -, q5⟩ := buf_get_spec st2 dest max_bytes h2
  rw [hsz, hs] at q2
  rw [hsz] at q1 q5
  refine ⟨by rw [q1, r1], ?_, by rw [q2, r2], by rw [q3, r3, he]⟩
  funext j
  rw [q5, r5, hs]
  by_cases hj : 0 ≤ j ∧ j < max 0 (min (buf_size st) max_bytes)
  · rw [if_pos hj, if_pos hj]
    have := hocc j.toNat (by omega)
    rw [Int.toNat_of_nonneg hj.1] at this
    exact this
  · rw [if_neg hj, if_neg hj]

/-- C10. A failed `buf_add` is invisible to the consumer: when it returns a
non-zero value, `fb_start`, `fb_end` and `buf_size()` are unchanged, every byte
of the occupied region is unchanged, and any following `buf_get` returns and
delivers what it would have before; and `buf_add` returns 0 exactly when
`l <= WRITE_BUFFER_SIZE - 1 - buf_size()`. -/
theorem buf_add_failure_atomic (st : RingState) (s : List UInt8) (h : InRange st) :
    ((buf_add st s s.length).ret ≠ 0 →
      (buf_add st s s.length).st.fb_start = st.fb_start ∧
      (buf_add st s s.length).st.fb_end = st.fb_end ∧
      buf_size (buf_add st s s.length).st = buf_size st ∧
      (∀ k : Nat, (k : Int) < buf_size st →
        (buf_add st s s.length).st.fwrite_buffer ((st.fb_start + k) % WRITE_BUFFER_SIZE)
          = st.fwrite_buffer ((st.fb_start + k) % WRITE_BUFFER_SIZE)) ∧
      (∀ (dest : Int → UInt8) (max_bytes : Int),
        (buf_get (buf_add st s s.length).st dest max_bytes).ret
          = (buf_get st dest max_bytes).ret ∧
        (buf_get (buf_add st s s.length).st dest max_bytes).dest
          = (buf_get st dest max_bytes).dest ∧
        (buf_get (buf_add st s s.length).st dest max_bytes).st.fb_start
          = (buf_get st dest max_bytes).st.fb_start ∧
        (buf_get (buf_add st s s.length).st dest max_bytes).st.fb_end
          = (buf_get st dest max_bytes).st.fb_end)) ∧
    ((buf_add st s s.length).ret = 0 ↔
      (s.length : Int) ≤ WRITE_BUFFER_SIZE - 1 - buf_size st) := by
  refine ⟨fun hne => ?_, buf_add_ret_zero_iff st s h⟩
  have hfull : WRITE_BUFFER_SIZE - 1 - buf_size st < (s.length : Int) := by
    by_contra hc
    exact hne ((buf_add_ret_zero_iff st s h).2 (not_lt.mp hc))
  obtain ⟨-, a, b, hb, -⟩ := buf_add_full st s _ h hfull
  have hocc : ∀ k : Nat, (k : Int) < buf_size st →
      (buf_add st s s.length).st.fwrite_buffer ((st.fb_start + k) % WRITE_BUFFER_SIZE)
        = st.fwrite_buffer ((st.fb_start + k) % WRITE_BUFFER_SIZE) := by
    intro k hk
    rw [hb, if_neg]
    have hs := buf_size_eq st h
    obtain ⟨h1, h2, h3, h4⟩ := h
    rw [wbs_eq] at *
    omega
  refine ⟨a, b, by unfold buf_size; rw [a, b], hocc, fun dest m => ?_⟩
  exact buf_get_congr st _ dest m h a b hocc

/-- Witness of C10: two bytes offered to a ring with one free slot. -/
theorem buf_add_failure_atomic_witness :
    InRange almost_full ∧
    (buf_add almost_full [7, 8] 2).ret = 1 ∧
    (buf_add almost_full [7, 8] 2).st.fwrite_buffer 0 = 7 ∧
    (buf_add almost_full [7, 8] 2).st.fb_end = almost_full.fb_end ∧
    buf_size (buf_add almost_full [7, 8] 2).st = buf_size almost_full :=
  ⟨by decide, by decide, by decide,
    ((buf_add_failure_atomic almost_full [7, 8] (by decide)).1 (by decide)).2.1,
    ((buf_add_failure_atomic almost_full [7, 8] (by decide)).1 (by decide)).2.2.1⟩

/-- C2 as stated fails: on a ring with one free slot, `buf_add` of two bytes
returns `r = 1`, yet `buf_size()` has not grown by `l - r = 1`, and a `buf_get`
of everything that is buffered still returns the 52428798 bytes that were
buffered before, not one more. -/
theorem buf_add_leftover_counterexample :
    InRange almost_full ∧
    WRITE_BUFFER_SIZE - 1 - buf_size almost_full < 2 ∧
    (buf_add almost_full [7, 8] 2).ret = 1 ∧
    buf_size (buf_add almost_full [7, 8] 2).st ≠ buf_size almost_full + (2 - 1) ∧
    (buf_get (buf_add almost_full [7, 8] 2).st (fun _ => 0) 52428800).ret = 52428798 := by
  have hin : InRange almost_full := by decide
  have hne : (buf_add almost_full [7, 8] 2).ret ≠ 0 := by decide
  refine ⟨hin, by decide, by decide, by decide, ?_⟩
  have hin2 : InRange (buf_add almost_full [7, 8] 2).st := by decide
  rw [(buf_get_spec _ _ _ hin2).1]
  decide

/-- C2, amended. When the input of length `l` exceeds the free space
`f = WRITE_BUFFER_SIZE - 1 - buf_size()`, `buf_add` returns `r = l - f`, the
number of bytes by which the input exceeds the free space, and stores nothing:
`fb_start`, `fb_end`, `buf_size()` and the buffered bytes are unchanged; the
first `l - r` input bytes have only been copied into the free slots after
`fb_end`. -/
theorem buf_add_reports_excess (st : RingState) (s : List UInt8) (h : InRange st)
    (hex : WRITE_BUFFER_SIZE - 1 - buf_size st < (s.length : Int)) :
    (buf_add st s s.length).ret
      = (s.length : Int) - (WRITE_BUFFER_SIZE - 1 - buf_size st) ∧
    0 < (buf_add st s s.length).ret ∧
    (buf_add st s s.length).st.fb_start = st.fb_start ∧
    (buf_add st s s.length).st.fb_end = st.fb_end ∧
    buf_size (buf_add st s s.length).st = buf_size st ∧
    contents (buf_add st s s.length).st = contents st ∧
    (∀ k : Nat, (k : Int) < (s.length : Int) - (buf_add st s s.length).ret →
      (buf_add st s s.length).st.fwrite_buffer ((st.fb_end + k) % WRITE_BUFFER_SIZE)
        = s.getD k 0) := by
  obtain ⟨r, a, b, hb, c⟩ := buf_add_full st s _ h hex
  have hs := buf_size_eq st h
  refine ⟨r, by rw [r]; omega, a, b, by unfold buf_size; rw [a, b], c, ?_⟩
  intro k hk
  rw [r] at hk
  obtain ⟨h1, h2, h3, h4⟩ := h
  have hidx : ((st.fb_end + (k : Int)) % WRITE_BUFFER_SIZE - st.fb_end) % WRITE_BUFFER_SIZE
      = (k : Int) := by
    rw [wbs_eq] at *
    omega
  rw [hb, if_pos, hidx, Int.toNat_ofNat]
  rw [hidx]
  rw [wbs_eq] at *
  omega

/-- Witness of C2 (amended): two bytes offered to a ring with one free slot. -/
theorem buf_add_reports_excess_witness :
    InRange almost_full ∧
    WRITE_BUFFER_SIZE - 1 - buf_size almost_full < (([7, 8] : List UInt8).length : Int) ∧
    (buf_add almost_full [7, 8] ([7, 8] : List UInt8).length).ret = 1 ∧
    contents (buf_add almost_full [7, 8] ([7, 8] : List UInt8).length).st
      = contents almost_full :=
  ⟨by decide, by decide, by decide,
    (buf_add_reports_excess almost_full [7, 8] (by decide) (by decide)).2.2.2.2.2.1⟩

/-! ## Retrying after a full ring -/

theorem dest_bytes_length (dest : Int → UInt8) (n : Int) :
    (dest_bytes dest n).length = n.toNat := by
  simp [dest_bytes]

theorem contents_length (st : RingState) : (contents st).length = (buf_size st).toNat := by
  simp [contents]

theorem retry_run_fields (st : RingState) (s : List UInt8) (dest : Int → UInt8)
    (max_bytes : Int) (retry : List UInt8) (dest2 : Int → UInt8) :
    (retry_run st s dest max_bytes retry dest2).first = buf_add st s s.length ∧
    (retry_run st s dest max_bytes retry dest2).freed
      = buf_get (buf_add st s s.length).st dest max_bytes ∧
    (retry_run st s dest max_bytes retry dest2).second
      = buf_add (buf_get (buf_add st s s.length).st dest max_bytes).st retry retry.length ∧
    (retry_run st s dest max_bytes retry dest2).drained
      = buf_get (buf_add (buf_get (buf_add st s s.length).st dest max_bytes).st
          retry retry.length).st dest2 WRITE_BUFFER_SIZE :=
  ⟨rfl, rfl, rfl, rfl⟩

/-- C3 as stated fails: on a ring with one free slot, `buf_add` of `[7, 8]`
returns `r = 1`; after `buf_get` frees one byte, a second `buf_add` of the last
`r` bytes `[8]` returns 0, but the bytes delivered are not the old bytes
followed by `7, 8`: the byte 7 was never committed, and 8 sits in its slot. -/
theorem retry_leftover_counterexample :
    InRange almost_full ∧
    (retry_run almost_full [7, 8] (fun _ => 0) 1 [8] (fun _ => 0)).first.ret = 1 ∧
    (retry_run almost_full [7, 8] (fun _ => 0) 1 [8] (fun _ => 0)).freed.ret = 1 ∧
    (retry_run almost_full [7, 8] (fun _ => 0) 1 [8] (fun _ => 0)).second.ret = 0 ∧
    (retry_run almost_full [7, 8] (fun _ => 0) 1 [8] (fun _ => 0)).second.st.fwrite_buffer 0 = 8 ∧
    dest_bytes (retry_run almost_full [7, 8] (fun _ => 0) 1 [8] (fun _ => 0)).freed.dest
        (retry_run almost_full [7, 8] (fun _ => 0) 1 [8] (fun _ => 0)).freed.ret
      ++ dest_bytes (retry_run almost_full [7, 8] (fun _ => 0) 1 [8] (fun _ => 0)).drained.dest
        (retry_run almost_full [7, 8] (fun _ => 0) 1 [8] (fun _ => 0)).drained.ret
      ≠ contents almost_full ++ [7, 8] := by
  obtain ⟨e1, e2, e3, e4⟩ := retry_run_fields almost_full [7, 8] (fun _ => 0) 1 [8] (fun _ => 0)
  rw [e1, e2, e3, e4]
  have hin : InRange (buf_add (buf_get (buf_add almost_full [7, 8]
      ([7, 8] : List UInt8).length).st (fun _ => 0) 1).st [8] ([8] : List UInt8).length).st := by
    decide
  have hd := (buf_get_spec _ (fun _ => 0) WRITE_BUFFER_SIZE hin).1
  have hsz : max 0 (min (buf_size (buf_add (buf_get (buf_add almost_full [7, 8]
      ([7, 8] : List UInt8).length).st (fun _ => 0) 1).st [8] ([8] : List UInt8).length).st)
      WRITE_BUFFER_SIZE) = 52428798 := by decide
  rw [hsz] at hd
  refine ⟨by decide, by decide, by decide, by decide, by decide, ?_⟩
  intro heq
  have hlen := congrArg List.length heq
  have hf : (buf_get (buf_add almost_full [7, 8]
      ([7, 8] : List UInt8).length).st (fun _ => 0) 1).ret = 1 := by decide
  have hc : (buf_size almost_full).toNat = 52428798 := by decide
  rw [hd, hf] at hlen
  rw [List.length_append, List.length_append, dest_bytes_length, dest_bytes_length,
    contents_length, hc] at hlen
  simp only [List.length_cons, List.length_nil] at hlen
  omega

/-- C3, amended. When `buf_add(s, l)` returns `r > 0` and `buf_get` then frees
at least `r` bytes, a second `buf_add` of the whole input `s` (the call
`rx_callback` repeats) returns 0, and the bytes delivered by that `buf_get` and
by a following `buf_get` of everything are the bytes buffered before the first
call followed by all `l` bytes of `s`, in order. -/
theorem retry_whole_input (st : RingState) (s : List UInt8) (dest : Int → UInt8)
    (max_bytes : Int) (dest2 : Int → UInt8) (h : InRange st)
    (hr : 0 < (retry_run st s dest max_bytes s dest2).first.ret)
    (hfreed : (retry_run st s dest max_bytes s dest2).first.ret
      ≤ (retry_run st s dest max_bytes s dest2).freed.ret) :
    (retry_run st s dest max_bytes s dest2).second.ret = 0 ∧
    dest_bytes (retry_run st s dest max_bytes s dest2).freed.dest
        (retry_run st s dest max_bytes s dest2).freed.ret
      ++ dest_bytes (retry_run st s dest max_bytes s dest2).drained.dest
        (retry_run st s dest max_bytes s dest2).drained.ret
      = contents st ++ s ∧
    buf_size (retry_run st s dest max_bytes s dest2).drained.st = 0 := by
  obtain ⟨e1, e2, e3, e4⟩ := retry_run_fields st s dest max_bytes s dest2
  rw [e1] at hr
  rw [e1, e2] at hfreed
  rw [e2, e3, e4]
  have hs := buf_size_eq st h
  have hfull : WRITE_BUFFER_SIZE - 1 - buf_size st < (s.length : Int) := by
    by_contra hc
    have := (buf_add_ret_zero_iff st s h).2 (not_lt.mp hc)
    omega
  obtain ⟨a1, a2, a3, -, a5⟩ := buf_add_full st s _ h hfull
  have hin1 : InRange (buf_add st s s.length).st := by
    unfold InRange; rw [a2, a3]; exact h
  have hsz1 : buf_size (buf_add st s s.length).st = buf_size st := by
    unfold buf_size; rw [a2, a3]
  obtain ⟨g1, -⟩ := buf_get_spec (buf_add st s s.length).st dest max_bytes hin1
  obtain ⟨hin2, hsz2⟩ := buf_get_inRange (buf_add st s s.length).st dest max_bytes hin1
  obtain ⟨d1, d2⟩ := buf_get_delivers (buf_add st s s.length).st dest max_bytes hin1
  rw [← g1] at hsz2 d1 d2
  rw [a5] at d1 d2
  rw [hsz1] at hsz2
  have hfit : (s.length : Int) ≤ WRITE_BUFFER_SIZE - 1
      - buf_size (buf_get (buf_add st s s.length).st dest max_bytes).st := by
    rw [hsz2]; omega
  obtain ⟨b1, -, -, hin3, b5, b6⟩ :=
    buf_add_ok (buf_get (buf_add st s s.length).st dest max_bytes).st s _ hin2 (by omega) hfit
  have hs3 := buf_size_eq _ hin3
  obtain ⟨f1, -⟩ := buf_get_spec
    (buf_add (buf_get (buf_add st s s.length).st dest max_bytes).st s s.length).st
    dest2 WRITE_BUFFER_SIZE hin3
  obtain ⟨-, fsz⟩ := buf_get_inRange
    (buf_add (buf_get (buf_add st s s.length).st dest max_bytes).st s s.length).st
    dest2 WRITE_BUFFER_SIZE hin3
  obtain ⟨k1, -⟩ := buf_get_delivers
    (buf_add (buf_get (buf_add st s s.length).st dest max_bytes).st s s.length).st
    dest2 WRITE_BUFFER_SIZE hin3
  have hall : max 0 (min (buf_size
      (buf_add (buf_get (buf_add st s s.length).st dest max_bytes).st s s.length).st)
      WRITE_BUFFER_SIZE)
      = buf_size (buf_add (buf_get (buf_add st s s.length).st dest max_bytes).st s s.length).st := by
    omega
  rw [hall] at fsz k1
  refine ⟨b1, ?_, by rw [fsz]; omega⟩
  have ht : List.take (buf_size
      (buf_add (buf_get (buf_add st s s.length).st dest max_bytes).st s s.length).st).toNat
      (contents (buf_add (buf_get (buf_add st s s.length).st dest max_bytes).st s s.length).st)
      = contents (buf_add (buf_get (buf_add st s s.length).st dest max_bytes).st s s.length).st :=
    List.take_of_length_le (by rw [contents_length])
  rw [d1, k1, ht, b6, d2, src_bytes_length, ← List.append_assoc, List.take_append_drop]

/-- Witness of C3 (amended): `[7, 8]` offered to a ring with one free slot,
one byte freed, `[7, 8]` offered again. -/
theorem retry_whole_input_witness :
    InRange almost_full ∧
    0 < (retry_run almost_full [7, 8] (fun _ => 0) 1 [7, 8] (fun _ => 0)).first.ret ∧
    (retry_run almost_full [7, 8] (fun _ => 0) 1 [7, 8] (fun _ => 0)).first.ret
      ≤ (retry_run almost_full [7, 8] (fun _ => 0) 1 [7, 8] (fun _ => 0)).freed.ret ∧
    (retry_run almost_full [7, 8] (fun _ => 0) 1 [7, 8] (fun _ => 0)).second.ret = 0 ∧
    dest_bytes (retry_run almost_full [7, 8] (fun _ => 0) 1 [7, 8] (fun _ => 0)).freed.dest
        (retry_run almost_full [7, 8] (fun _ => 0) 1 [7, 8] (fun _ => 0)).freed.ret
      ++ dest_bytes (retry_run almost_full [7, 8] (fun _ => 0) 1 [7, 8] (fun _ => 0)).drained.dest
        (retry_run almost_full [7, 8] (fun _ => 0) 1 [7, 8] (fun _ => 0)).drained.ret
      = contents almost_full ++ [7, 8] := by
  obtain ⟨e1, e2, -, -⟩ :=
    retry_run_fields almost_full [7, 8] (fun _ => 0) 1 [7, 8] (fun _ => 0)
  have h1 : 0 < (retry_run almost_full [7, 8] (fun _ => 0) 1 [7, 8] (fun _ => 0)).first.ret := by
    rw [e1]; decide
  have h2 : (retry_run almost_full [7, 8] (fun _ => 0) 1 [7, 8] (fun _ => 0)).first.ret
      ≤ (retry_run almost_full [7, 8] (fun _ => 0) 1 [7, 8] (fun _ => 0)).freed.ret := by
    rw [e1, e2]; decide
  have key := retry_whole_input almost_full [7, 8] (fun _ => 0) 1 (fun _ => 0) (by decide) h1 h2
  exact ⟨by decide, h1, h2, key.1, key.2.1⟩

/-! ## `rx_callback`: the quota -/

theorem rx_callback_step (fuel : Nat) (g : Globals) (t : hackrf_transfer)
    (hfd : g.fd_nonnull = true) (hlim : g.limit_num_samples = true)
    (hq : 0 ≤ g.bytes_to_xfer ∧ g.bytes_to_xfer < 2 ^ 64) (hin : InRange g.ring)
    (hfit : 0 ≤ t.valid_length ∧ t.valid_length ≤ t.buffer.length ∧
      t.valid_length ≤ WRITE_BUFFER_SIZE - 1 - buf_size g.ring) :
    ∃ g1 ret, rx_callback (fuel + 1) g t = some (g1, ret) ∧
      g1.fd_nonnull = true ∧ g1.limit_num_samples = true ∧
      (0 ≤ g1.bytes_to_xfer ∧ g1.bytes_to_xfer < 2 ^ 64) ∧ InRange g1.ring ∧
      g1.bytes_to_xfer = g.bytes_to_xfer - min t.valid_length g.bytes_to_xfer ∧
      contents g1.ring
        = contents g.ring ++ t.buffer.take (min t.valid_length g.bytes_to_xfer).toNat ∧
      buf_size g1.ring = buf_size g.ring + min t.valid_length g.bytes_to_xfer ∧
      ret = (if g1.bytes_to_xfer = 0 then -1 else 0) := by
  obtain ⟨hq0, hq1⟩ := hq
  obtain ⟨hv0, hvl, hvf⟩ := hfit
  have hs := buf_size_eq g.ring hin
  have hw : WRITE_BUFFER_SIZE = 52428800 := wbs_eq
  have hsz : to_size_t t.valid_length = t.valid_length := by
    unfold to_size_t; omega
  have hbw : (if g.limit_num_samples = true ∧ to_size_t t.valid_length ≥ g.bytes_to_xfer
      then g.bytes_to_xfer else to_size_t t.valid_length)
      = min t.valid_length g.bytes_to_xfer := by
    rw [hsz]
    by_cases hc : g.limit_num_samples = true ∧ t.valid_length ≥ g.bytes_to_xfer
    · rw [if_pos hc]; omega
    · rw [if_neg hc]
      have : ¬ (t.valid_length ≥ g.bytes_to_xfer) := fun h => hc ⟨hlim, h⟩
      omega
  have hn0 : 0 ≤ min t.valid_length g.bytes_to_xfer := by omega
  have hnv : min t.valid_length g.bytes_to_xfer ≤ t.valid_length := by omega
  generalize hn : min t.valid_length g.bytes_to_xfer = n at *
  have hbx : to_size_t (g.bytes_to_xfer - n) = g.bytes_to_xfer - n := by
    unfold to_size_t; omega
  have hl : to_int n = n := by
    unfold to_int; omega
  obtain ⟨a1, -, -, a4, a5, a6⟩ := buf_add_ok g.ring t.buffer n hin hn0 (by omega)
  have hspin : rx_spin t.buffer n (fuel + 1) g.ring = some (buf_add g.ring t.buffer n) := by
    simp only [rx_spin]
    rw [if_neg (by rw [a1]; simp)]
  refine ⟨⟨(buf_add g.ring t.buffer n).st, g.fd_nonnull,
      to_uint32 (g.byte_count + to_uint32 t.valid_length), g.limit_num_samples,
      g.bytes_to_xfer - n⟩, if g.bytes_to_xfer - n = 0 then -1 else 0, ?_, hfd, hlim,
      ⟨by show 0 ≤ g.bytes_to_xfer - n; omega, by show g.bytes_to_xfer - n < 2 ^ 64; omega⟩,
      a4, rfl, ?_, a5, rfl⟩
  · unfold rx_callback
    rw [if_pos hfd]
    simp only []
    rw [hbw, hl, hspin]
    simp only [hlim, if_true, hbx, a1, ne_eq, not_true_eq_false, false_or, true_and]
    split <;> rfl
  · show contents (buf_add g.ring t.buffer n).st = _
    rw [a6, src_bytes_take t.buffer n (by omega)]

theorem chunksFit_callback {fuel : Nat} {g : Globals} {t : hackrf_transfer}
    {evs : List Event} (h : ChunksFit fuel g (Event.callback t :: evs)) :
    (0 ≤ t.valid_length ∧ t.valid_length ≤ t.buffer.length) ∧
    t.valid_length ≤ WRITE_BUFFER_SIZE - 1 - buf_size g.ring ∧
    ∀ g1 ret, rx_callback fuel g t = some (g1, ret) → ChunksFit fuel g1 evs := by
  cases h with
  | callback _ _ _ hlen hfree hrest => exact ⟨hlen, hfree, hrest⟩

theorem chunksFit_drain {fuel : Nat} {g : Globals} {dest : Int → UInt8} {max_bytes : Int}
    {evs : List Event} (h : ChunksFit fuel g (Event.drain dest max_bytes :: evs)) :
    ChunksFit fuel { g with ring := (buf_get g.ring dest max_bytes).st } evs := by
  cases h with
  | drain _ _ _ _ hrest => exact hrest

theorem stop_value_iff (x ret : Int) (h : ret = if x = 0 then -1 else 0) :
    (ret = -1 ↔ x = 0) ∧ (ret ≠ -1 → ret = 0) := by
  subst h
  by_cases hx : x = 0
  · rw [if_pos hx]; exact ⟨⟨fun _ => hx, fun _ => rfl⟩, fun h => absurd rfl h⟩
  · rw [if_neg hx]; exact ⟨⟨fun h => absurd h (by decide), fun h => absurd h hx⟩, fun _ => rfl⟩

theorem rx_run_single_inv (fuel : Nat) (g : Globals) (t : hackrf_transfer) (gf : Globals)
    (log : List CallRecord) (h : rx_run fuel g [Event.callback t] = some (gf, log)) :
    ∃ ret, rx_callback fuel g t = some (gf, ret) ∧ log = [⟨g, t, gf, ret⟩] := by
  simp only [rx_run] at h
  cases hcall : rx_callback fuel g t with
  | none => rw [hcall] at h; cases h
  | some p =>
    obtain ⟨g1, ret⟩ := p
    rw [hcall] at h
    simp only [Option.some.injEq, Prod.mk.injEq] at h
    obtain ⟨rfl, rfl⟩ := h
    exact ⟨ret, rfl, rfl⟩

/-- C5. Quota enforcement in `rx_callback`: with the limit active, a non-null
sink and a quota in `bytes_to_xfer`, along every sequence of invocations whose
chunks fit in the ring (with `buf_get` calls in between), every invocation
returns, appends exactly the first `min(valid_length, remaining quota)` bytes of
its chunk to the ring, lowers the remaining quota by that amount, and returns
-1 exactly when the remaining quota is 0 afterwards and 0 otherwise; the bytes
pushed in total and the remaining quota add up to the initial quota. -/
theorem rx_callback_quota (fuel : Nat) (g : Globals) (evs : List Event)
    (hfd : g.fd_nonnull = true) (hlim : g.limit_num_samples = true)
    (hq : 0 ≤ g.bytes_to_xfer ∧ g.bytes_to_xfer < 2 ^ 64) (hin : InRange g.ring)
    (hfit : ChunksFit (fuel + 1) g evs) :
    ∃ gf log, rx_run (fuel + 1) g evs = some (gf, log) ∧
      log.map CallRecord.transfer = transfers_of evs ∧
      (∀ c ∈ log,
        contents c.after.ring = contents c.before.ring ++
          c.transfer.buffer.take (min c.transfer.valid_length c.before.bytes_to_xfer).toNat ∧
        buf_size c.after.ring
          = buf_size c.before.ring + min c.transfer.valid_length c.before.bytes_to_xfer ∧
        c.after.bytes_to_xfer
          = c.before.bytes_to_xfer - min c.transfer.valid_length c.before.bytes_to_xfer ∧
        (c.ret = -1 ↔ c.after.bytes_to_xfer = 0) ∧
        (c.ret ≠ -1 → c.ret = 0)) ∧
      (log.map (fun c => buf_size c.after.ring - buf_size c.before.ring)).sum
        + gf.bytes_to_xfer = g.bytes_to_xfer ∧
      (log.map (fun c => buf_size c.after.ring - buf_size c.before.ring)).sum
        ≤ g.bytes_to_xfer := by
  induction evs generalizing g with
  | nil =>
    refine ⟨g, [], rfl, rfl, ?_, ?_, ?_⟩
    · intro c hc; cases hc
    · simp
    · simpa using hq.1
  | cons ev evs ih =>
    cases ev with
    | callback t =>
      obtain ⟨hlen, hfree, hrest⟩ := chunksFit_callback hfit
      obtain ⟨g1, ret, hcall, s1, s2, s3, s4, s5, s6, s7, s8⟩ :=
        rx_callback_step fuel g t hfd hlim hq hin ⟨hlen.1, hlen.2, hfree⟩
      obtain ⟨gf, log, hrun, htr, hall, hsum, hle⟩ :=
        ih g1 s1 s2 s3 s4 (hrest g1 ret hcall)
      refine ⟨gf, ⟨g, t, g1, ret⟩ :: log, ?_, ?_, ?_, ?_, ?_⟩
      · simp only [rx_run, hcall, hrun]
      · simp only [List.map_cons, transfers_of, htr]
      · intro c hc
        rcases List.mem_cons.mp hc with rfl | hc
        · exact ⟨s6, s7, s5, stop_value_iff _ _ s8⟩
        · exact hall c hc
      · simp only [List.map_cons, List.sum_cons]
        rw [s7]
        omega
      · simp only [List.map_cons, List.sum_cons]
        rw [s7]
        omega
    | drain dest m =>
      have hrest := chunksFit_drain hfit
      have hin2 := (buf_get_inRange g.ring dest m hin).1
      obtain ⟨gf, log, hrun, htr, hall, hsum, hle⟩ :=
        ih { g with ring := (buf_get g.ring dest m).st } hfd hlim hq hin2 hrest
      exact ⟨gf, log, by simp only [rx_run, hrun], by simp only [transfers_of, htr],
        hall, hsum, hle⟩

/-- Witness of C5: with a quota of 10000 bytes, one chunk of 12000 bytes pushes
exactly its first 10000 bytes and the callback returns -1. -/
theorem rx_callback_quota_witness :
    (quota_globals.fd_nonnull = true ∧ quota_globals.limit_num_samples = true ∧
      quota_globals.bytes_to_xfer = 10000 ∧ InRange quota_globals.ring ∧
      quota_chunk.valid_length = 12000 ∧
      ChunksFit 1 quota_globals [Event.callback quota_chunk]) ∧
    ∃ g1, rx_run 1 quota_globals [Event.callback quota_chunk]
        = some (g1, [⟨quota_globals, quota_chunk, g1, -1⟩]) ∧
      contents g1.ring = quota_chunk.buffer.take 10000 ∧
      buf_size g1.ring = 10000 ∧
      g1.bytes_to_xfer = 0 := by
  have hlen : quota_chunk.valid_length ≤ (quota_chunk.buffer.length : Int) := by
    show (12000 : Int) ≤ ((List.replicate 12000 (1 : UInt8)).length : Int)
    rw [List.length_replicate]
    decide
  have hfit : ChunksFit 1 quota_globals [Event.callback quota_chunk] :=
    ChunksFit.callback _ _ _ ⟨by decide, hlen⟩ (by decide) (fun g1 _ _ => ChunksFit.nil g1)
  refine ⟨⟨rfl, rfl, rfl, by decide, rfl, hfit⟩, ?_⟩
  obtain ⟨gf, log, hrun, -, hall, -, -⟩ :=
    rx_callback_quota 0 quota_globals [Event.callback quota_chunk] rfl rfl
      (by decide) (by decide) hfit
  obtain ⟨ret, -, rfl⟩ := rx_run_single_inv _ _ _ _ _ hrun
  obtain ⟨c1, c2, c3, c4, -⟩ :=
    hall ⟨quota_globals, quota_chunk, gf, ret⟩ (List.mem_singleton.mpr rfl)
  have hmin : min quota_chunk.valid_length quota_globals.bytes_to_xfer = 10000 := by decide
  have hc0 : contents quota_globals.ring = [] := by
    have : buf_size quota_globals.ring = 0 := by decide
    unfold contents; rw [this]; rfl
  have hs0 : buf_size quota_globals.ring = 0 := by decide
  have c1' : contents gf.ring = contents quota_globals.ring ++
      quota_chunk.buffer.take (min quota_chunk.valid_length quota_globals.bytes_to_xfer).toNat :=
    c1
  have c2' : buf_size gf.ring
      = buf_size quota_globals.ring + min quota_chunk.valid_length quota_globals.bytes_to_xfer :=
    c2
  have c3' : gf.bytes_to_xfer
      = quota_globals.bytes_to_xfer - min quota_chunk.valid_length quota_globals.bytes_to_xfer :=
    c3
  rw [hmin, hc0, List.nil_append] at c1'
  rw [hmin, hs0] at c2'
  rw [hmin] at c3'
  have hx : gf.bytes_to_xfer = 0 := by rw [c3']; decide
  have hret : ret = -1 := c4.2 hx
  subst hret
  exact ⟨gf, hrun, c1', by rw [c2']; rfl, hx⟩

/-! ## The retry loop of `write_thread` -/

/-- C4 fails on the code. For a chunk of 3 bytes and a sink that accepts 1, 1
and then 2 bytes (each between 1 and the number requested of it), the retry
loop asks for `bytes_to_write - wrote` bytes, not `bytes_to_write - written`:
its third `fwrite` requests 2 bytes at offset 2, one beyond the chunk, the loop
ends with `written = 4`, and the sink has received the stale byte 99. -/
theorem flush_chunk_overrun :
    flush_chunk staged 3 [1, 1, 2] []
      = some ⟨[10, 20, 30, 99], 4, [(0, 3), (1, 2), (2, 2)]⟩ := by
  decide

/-- When the sink accepts the whole chunk in the first call, or in the second
call after one partial write, the loop does flush exactly the chunk. -/
theorem flush_chunk_two_calls (fd_buf : Int → UInt8) (bytes_to_write a : Int)
    (sink : List UInt8) (h1 : 1 ≤ a) (h2 : a < bytes_to_write) :
    flush_chunk fd_buf bytes_to_write [a, bytes_to_write - a] sink
      = some ⟨fwrite_bytes fd_buf a (bytes_to_write - a) (fwrite_bytes fd_buf 0 a sink),
          bytes_to_write, [(0, bytes_to_write), (a, bytes_to_write - a)]⟩ := by
  have h0 : (0 : Int) < bytes_to_write := by omega
  simp only [flush_chunk, flush_loop, if_pos h0, zero_add, sub_zero, if_pos h2,
    add_sub_cancel, lt_irrefl, if_false, List.nil_append, List.cons_append]

/-! ## `write_header` -/

theorem int_bytes_length (x : Int) : (int_bytes x).length = 4 := by
  simp [int_bytes]

theorem double_bytes_length (d : double) : (double_bytes d).length = 8 := by
  simp [double_bytes]

/-- C7 as stated fails: the preamble written for all-zero parameters has 52
bytes, not 44, and its header-length field holds 52, not 44. -/
theorem write_header_counterexample :
    (write_header [] ⟨0⟩ ⟨0⟩ ⟨0⟩ ⟨0⟩ 0 0).length = 52 ∧
    (write_header [] ⟨0⟩ ⟨0⟩ ⟨0⟩ ⟨0⟩ 0 0).length ≠ 44 ∧
    ((write_header [] ⟨0⟩ ⟨0⟩ ⟨0⟩ ⟨0⟩ 0 0).drop 8).take 4 = int_bytes 52 ∧
    ((write_header [] ⟨0⟩ ⟨0⟩ ⟨0⟩ ⟨0⟩ 0 0).drop 8).take 4 ≠ int_bytes 44 := by
  decide

/-- C7, amended. For every choice of sample rate, start frequency, bandwidth,
sweep time, delay and flags, `write_header` appends to the sink a preamble of
exactly 52 bytes: the 4-byte magic "FMCW", the 4-byte version 1, the 4-byte
header length, the 8-byte doubles sample rate, start frequency, bandwidth and
sweep time, and the 4-byte integers delay and flags; the header-length field
has the value 52. -/
theorem write_header_layout (fd : List UInt8) (sample_rate f0 bw tsweep : double)
    (delay flags : Int) :
    write_header fd sample_rate f0 bw tsweep delay flags
      = fd ++ ([0x46, 0x4D, 0x43, 0x57] ++ int_bytes 1 ++ int_bytes 52
          ++ double_bytes sample_rate ++ double_bytes f0 ++ double_bytes bw
          ++ double_bytes tsweep ++ int_bytes delay ++ int_bytes flags) ∧
    (write_header fd sample_rate f0 bw tsweep delay flags).length = fd.length + 52 ∧
    (((write_header fd sample_rate f0 bw tsweep delay flags).drop fd.length).drop 8).take 4
      = int_bytes 52 := by
  have hi : ∀ x : Int, (int_bytes x).take (4 * 1) = int_bytes x := fun x =>
    List.take_of_length_le (by rw [int_bytes_length])
  have hd : ∀ d : double, (double_bytes d).take (8 * 1) = double_bytes d := fun d =>
    List.take_of_length_le (by rw [double_bytes_length])
  have hm : ([0x46, 0x4D, 0x43, 0x57, 0] : List UInt8).take (1 * 4) = [0x46, 0x4D, 0x43, 0x57] :=
    rfl
  have hv : FILE_VERSION = 1 := rfl
  have hh : ((4 + 4 + 4 + 8 + 8 + 8 + 8 + 4 + 4 : Int)) = 52 := by norm_num
  have heq : write_header fd sample_rate f0 bw tsweep delay flags
      = fd ++ ([0x46, 0x4D, 0x43, 0x57] ++ int_bytes 1 ++ int_bytes 52
          ++ double_bytes sample_rate ++ double_bytes f0 ++ double_bytes bw
          ++ double_bytes tsweep ++ int_bytes delay ++ int_bytes flags) := by
    simp only [write_header, fwrite, hi, hd, hm, hv, hh, List.append_assoc]
  refine ⟨heq, ?_, ?_⟩
  · rw [heq]
    simp only [List.length_append, int_bytes_length, double_bytes_length, List.length_cons,
      List.length_nil]
  · rw [heq, List.drop_left]
    simp only [List.append_assoc, List.cons_append, List.nil_append]
    have h4 : int_bytes 1 = [(int_bytes 1).getD 0 0, (int_bytes 1).getD 1 0,
        (int_bytes 1).getD 2 0, (int_bytes 1).getD 3 0] := by decide
    rw [h4]
    simp only [List.cons_append, List.nil_append, List.drop_succ_cons, List.drop_zero]
    rw [List.take_left' (int_bytes_length 52)]

end HackrfTransfer
